import Mathlib

/-!
Verification of the line-oriented configuration-file patcher of
`src/bootstrap.py` (`class ConfigFileManager`, lines 54-132).

A document is modelled as an ordered list of lines, each line a list of
characters, exactly as produced by Python's `readlines()`: line terminators
are kept inside the lines.  Python string primitives used by the source
(`strip`, `startswith`, substring `in`, `endswith('\n')`, `splitlines`,
`readlines`, `writelines`) are each translated into a small executable
Lean function on `List Char`.
-/

namespace Bootstrap

/-- A single text line: a list of characters (may or may not end in `'\n'`). -/
abbrev Line : Type := List Char

/-- A document: the ordered list of lines held in `ConfigFileManager.content`. -/
abbrev Doc : Type := List Line

/-- Characters removed by Python's `str.strip()` (the ASCII whitespace set:
space, tab, newline, carriage return, vertical tab, form feed). -/
def pyIsSpace (c : Char) : Bool :=
  c == ' ' || c == '\t' || c == '\n' || c == '\r' || c == Char.ofNat 11 || c == Char.ofNat 12

/-- Python `s.lstrip()`: drop leading whitespace. -/
def lstrip (l : List Char) : List Char := l.dropWhile pyIsSpace

/-- Python `s.rstrip()`: drop trailing whitespace. -/
def rstrip (l : List Char) : List Char := (l.reverse.dropWhile pyIsSpace).reverse

/-- Python `s.strip()`: drop leading and trailing whitespace. -/
def strip (l : List Char) : List Char := rstrip (lstrip l)

/-- Python `s.startswith(p)` (used on stripped lines in the source). -/
def startsWithB : List Char → List Char → Bool
  | [], _ => true
  | _ :: _, [] => false
  | p :: ps, c :: cs => p == c && startsWithB ps cs

/-- Python substring test `needle in hay` (used by the already-present check,
line 85 of `src/bootstrap.py`). -/
def containsB (needle : List Char) : List Char → Bool
  | [] => needle.isEmpty
  | c :: cs => startsWithB needle (c :: cs) || containsB needle cs

/-- Python `s.endswith('\n')`. -/
def endsNL : List Char → Bool
  | [] => false
  | [c] => c == '\n'
  | _ :: c :: cs => endsNL (c :: cs)

/-- The terminator normalization applied by the source to every line it adds:
`line + "\n" if not line.endswith('\n') else line` (lines 97, 101, 105, 115,
123, 130 of `src/bootstrap.py`). -/
def normLine (l : Line) : Line := if endsNL l then l else l ++ ['\n']

/-- The guard `not self.content or not self.content[-1].endswith('\n')`
(lines 99, 103 and 121 of `src/bootstrap.py`): true when the document is
empty or its last line lacks a trailing terminator. -/
def needsSep : Doc → Bool
  | [] => true
  | [l] => !endsNL l
  | _ :: l :: ls => needsSep (l :: ls)

/-- The end-of-file append performed by the source (lines 99-101, 103-105 and
121-123): first append a bare `"\n"` element when `needsSep` holds, then
append the terminator-normalized new line. -/
def appendLine (doc : Doc) (l : Line) : Doc :=
  (if needsSep doc then doc ++ [['\n']] else doc) ++ [normLine l]

/-- Python `list.insert(i, x)` for `i ≤ len` (line 97 of `src/bootstrap.py`). -/
def insertAt (doc : Doc) (i : Nat) (l : Line) : Doc :=
  doc.take i ++ l :: doc.drop i

/-- The already-present scan of `ensure_line_present` (lines 84-87 of
`src/bootstrap.py`): some line's stripped text contains the stripped content. -/
def hasLine (doc : Doc) (c : Line) : Bool :=
  doc.any (fun line => containsB (strip c) (strip line))

/-- The anchor scan of `ensure_line_present` (lines 90-94 of
`src/bootstrap.py`): index of the first line whose stripped text starts with
the anchor, if any. -/
def findAnchor (pfx : Line) : Doc → Option Nat
  | [] => none
  | line :: rest =>
    if startsWithB pfx (strip line) then some 0
    else (findAnchor pfx rest).map (· + 1)

/-- Result of one `ConfigFileManager` operation: the new in-memory document,
whether `_write_file` was invoked, and the returned boolean as a function of
the write outcome (early returns ignore the write outcome). -/
structure OpResult where
  doc : Doc
  wrote : Bool
  retOf : Bool → Bool

/-- `ConfigFileManager.ensure_line_present` (lines 80-107 of
`src/bootstrap.py`).  An anchor argument of `some []` mirrors passing the
empty string: Python's `if after_line_prefix:` treats it as absent. -/
def ensure_line_present (doc : Doc) (lineToAdd : Line) (afterLinePfx : Option Line) : OpResult :=
  if hasLine doc lineToAdd then
    ⟨doc, false, fun _ => true⟩
  else
    match afterLinePfx with
    | some pfx =>
      if pfx = [] then
        ⟨appendLine doc lineToAdd, true, fun w => w⟩
      else
        match findAnchor pfx doc with
        | some i => ⟨insertAt doc (i + 1) (normLine lineToAdd), true, fun w => w⟩
        | none => ⟨appendLine doc lineToAdd, true, fun w => w⟩
    | none => ⟨appendLine doc lineToAdd, true, fun w => w⟩

/-- `ConfigFileManager.replace_line_prefix` (lines 109-126 of
`src/bootstrap.py`): the loop maps every line whose stripped text starts with
the prefix to the normalized new line; if none matched, the new line is
appended under the `needsSep` guard. -/
def replaceLinePfx (doc : Doc) (pfx newLine : Line) : OpResult :=
  let newContent := doc.map (fun line =>
    if startsWithB pfx (strip line) then normLine newLine else line)
  if doc.any (fun line => startsWithB pfx (strip line)) then
    ⟨newContent, true, fun w => w⟩
  else
    ⟨appendLine newContent newLine, true, fun w => w⟩

/-- Python `s.splitlines()` restricted to the `'\n'` terminator: split into
lines, discarding the terminators, with no trailing empty line. -/
def splitlines : List Char → List (List Char)
  | [] => []
  | c :: cs =>
    if c = '\n' then [] :: splitlines cs
    else
      match splitlines cs with
      | [] => [[c]]
      | l :: ls => (c :: l) :: ls

/-- `ConfigFileManager.overwrite_file` (lines 128-132 of `src/bootstrap.py`):
the prior document is discarded and replaced by the split and re-terminated
new text. -/
def overwrite_file (_prior : Doc) (newContent : List Char) : OpResult :=
  ⟨(splitlines newContent).map normLine, true, fun w => w⟩

/-- A line ends with exactly one terminator: its last character is `'\n'` and
its second-to-last is not. -/
def endsExactlyOnce (l : Line) : Bool := endsNL l && !endsNL l.dropLast

/-- Python `f.readlines()`: split text into lines, each keeping its
terminator; a final fragment without a terminator is kept as a last line. -/
def readlines : List Char → List (List Char)
  | [] => []
  | c :: cs =>
    if c = '\n' then ['\n'] :: readlines cs
    else
      match readlines cs with
      | [] => [[c]]
      | l :: ls => (c :: l) :: ls

/-- Python `f.writelines(content)`: the bytes written are the concatenation
of the lines (line 73 of `src/bootstrap.py`). -/
def serialize : Doc → List Char
  | [] => []
  | l :: rest => l ++ serialize rest

/-- Exceptions the file layer can raise. -/
inductive PyExn where
  | permissionDenied
  | ioError
  deriving DecidableEq, Repr

/-- The I/O environment seen by one operation: whether the bound path exists,
what `open(...).readlines()` yields when attempted (contents or an
exception), and whether the write attempt succeeds. -/
structure IOEnv where
  fileExists : Bool
  readRaw : Except PyExn (List Char)
  writeRes : Except PyExn Unit

/-- `ConfigFileManager._read_file` (lines 62-67 of `src/bootstrap.py`): if the
path exists, open and read all lines — with no exception handler, so a raised
exception propagates; if the path does not exist, return the empty document. -/
def read_file (env : IOEnv) : Except PyExn Doc :=
  if env.fileExists then env.readRaw.map readlines else Except.ok []

/-- `ConfigFileManager._write_file` (lines 69-78 of `src/bootstrap.py`): the
write is wrapped in `try/except Exception`, so it always returns a boolean —
`True` on success, `False` when the attempt raised. -/
def write_file (env : IOEnv) (_content : Doc) : Bool :=
  match env.writeRes with
  | Except.ok _ => true
  | Except.error _ => false

/-- Storage state after `_write_file` successfully wrote a document: the file
exists and holds the concatenation of the document's lines. -/
def afterWrite (doc : Doc) : IOEnv :=
  ⟨true, Except.ok (serialize doc), Except.ok ()⟩

/-- A line as produced by `readlines`: nonempty, with `'\n'` allowed only as
its final character. -/
def lineOk (l : Line) : Bool := !l.isEmpty && l.dropLast.all (fun c => !(c == '\n'))

/-- A document shaped like the output of `readlines`: every line `lineOk`,
and every line except the last terminator-ended. -/
def wellFormed : Doc → Bool
  | [] => true
  | [l] => lineOk l
  | l :: l' :: ls => lineOk l && endsNL l && wellFormed (l' :: ls)

/-- String literal to character list, for concrete test documents. -/
def toL (s : String) : List Char := s.data

/-! ### Lemmas about the Python string primitives -/

theorem startsWithB_refl (l : List Char) : startsWithB l l = true := by
  induction l with
  | nil => rfl
  | cons c cs ih => simp [startsWithB, ih]

theorem startsWithB_iff (p : List Char) :
    ∀ l : List Char, startsWithB p l = true ↔ ∃ rest, l = p ++ rest := by
  induction p with
  | nil =>
    intro l
    simp [startsWithB]
  | cons a ps ih =>
    intro l
    cases l with
    | nil =>
      simp [startsWithB]
    | cons b cs =>
      simp only [startsWithB, Bool.and_eq_true, beq_iff_eq, ih, List.cons_append,
        List.cons.injEq]
      constructor
      · rintro ⟨rfl, rest, rfl⟩
        exact ⟨rest, rfl, rfl⟩
      · rintro ⟨rest, rfl, rfl⟩
        exact ⟨rfl, rest, rfl⟩

theorem containsB_self (l : List Char) : containsB l l = true := by
  cases l with
  | nil => rfl
  | cons c cs => simp [containsB, startsWithB_refl]

theorem containsB_nil (l : List Char) : containsB [] l = true := by
  cases l with
  | nil => rfl
  | cons c cs => simp [containsB, startsWithB]

theorem containsB_iff (n : List Char) :
    ∀ h : List Char, containsB n h = true ↔ ∃ pre post, h = pre ++ n ++ post := by
  intro h
  induction h with
  | nil =>
    simp only [containsB, List.isEmpty_iff]
    constructor
    · rintro rfl
      exact ⟨[], [], rfl⟩
    · rintro ⟨pre, post, hp⟩
      rcases List.append_eq_nil.mp hp.symm with ⟨h1, h2⟩
      exact (List.append_eq_nil.mp h1).2
  | cons c cs ih =>
    simp only [containsB, Bool.or_eq_true, startsWithB_iff, ih]
    constructor
    · rintro (⟨rest, hr⟩ | ⟨pre, post, hp⟩)
      · exact ⟨[], rest, by simp [hr]⟩
      · exact ⟨c :: pre, post, by simp [hp]⟩
    · rintro ⟨pre, post, hp⟩
      cases pre with
      | nil =>
        exact Or.inl ⟨post, by simpa using hp⟩
      | cons p pre' =>
        rw [List.cons_append, List.cons_append] at hp
        obtain ⟨-, hp'⟩ := List.cons.injEq .. ▸ hp
        exact Or.inr ⟨pre', post, by simpa using hp'⟩

theorem endsNL_concat (l : List Char) : endsNL (l ++ ['\n']) = true := by
  induction l with
  | nil => rfl
  | cons c cs ih =>
    cases cs with
    | nil => simp [endsNL]
    | cons d ds => simpa [endsNL] using ih

theorem endsNL_normLine (l : Line) : endsNL (normLine l) = true := by
  unfold normLine
  by_cases h : endsNL l
  · simp [h]
  · simp [h, endsNL_concat]

theorem dropLast_concat_of_endsNL (l : List Char) (h : endsNL l = true) :
    l.dropLast ++ ['\n'] = l := by
  induction l with
  | nil => simp [endsNL] at h
  | cons c cs ih =>
    cases cs with
    | nil =>
      simp only [endsNL, beq_iff_eq] at h
      simp [h]
    | cons d ds =>
      have h' : endsNL (d :: ds) = true := h
      have := ih h'
      simpa [List.dropLast] using this

theorem lstrip_append (l m : List Char) :
    lstrip (l ++ m) = if (lstrip l).isEmpty then lstrip m else lstrip l ++ m := by
  induction l with
  | nil => simp [lstrip]
  | cons c cs ih =>
    by_cases hc : pyIsSpace c
    · simpa [lstrip, List.dropWhile_cons, hc] using ih
    · simp [lstrip, List.dropWhile_cons, hc]

theorem rstrip_concat_nl (l : List Char) : rstrip (l ++ ['\n']) = rstrip l := by
  have hsp : pyIsSpace '\n' = true := by decide
  simp [rstrip, List.reverse_append, List.dropWhile_cons, hsp]

theorem strip_concat_nl (l : List Char) : strip (l ++ ['\n']) = strip l := by
  unfold strip
  rw [lstrip_append]
  by_cases h : (lstrip l).isEmpty
  · rw [if_pos h, List.isEmpty_iff.mp h]
    rfl
  · rw [if_neg h, rstrip_concat_nl]

theorem strip_normLine (l : Line) : strip (normLine l) = strip l := by
  unfold normLine
  by_cases h : endsNL l
  · simp [h]
  · simp [h, strip_concat_nl]

/-! ### Lemmas about documents and the patch operations -/

theorem needsSep_of_last (doc : Doc) (last : Line)
    (h : doc.getLast? = some last) (hf : endsNL last = false) : needsSep doc = true := by
  induction doc with
  | nil => simp at h
  | cons l ls ih =>
    cases ls with
    | nil =>
      simp only [List.getLast?_singleton, Option.some.injEq] at h
      simp [needsSep, h ▸ hf]
    | cons l' ls' =>
      rw [List.getLast?_cons_cons] at h
      exact ih h

theorem hasLine_of_mem_normLine (doc : Doc) (c : Line) (h : normLine c ∈ doc) :
    hasLine doc c = true := by
  refine List.any_eq_true.mpr ⟨normLine c, h, ?_⟩
  rw [strip_normLine]
  exact containsB_self (strip c)

theorem normLine_mem_appendLine (doc : Doc) (l : Line) : normLine l ∈ appendLine doc l := by
  unfold appendLine
  by_cases h : needsSep doc <;> simp [h]

theorem normLine_mem_insertAt (doc : Doc) (i : Nat) (l : Line) : l ∈ insertAt doc i l := by
  simp [insertAt]

theorem findAnchor_eq_none (pfx : Line) (doc : Doc)
    (h : ∀ l ∈ doc, startsWithB pfx (strip l) = false) : findAnchor pfx doc = none := by
  induction doc with
  | nil => rfl
  | cons l ls ih =>
    have h0 : startsWithB pfx (strip l) = false := h l (List.mem_cons_self l ls)
    simp only [findAnchor, h0, Bool.false_eq_true, if_false,
      ih (fun x hx => h x (List.mem_cons_of_mem l hx))]
    rfl

theorem findAnchor_eq_some (pfx : Line) :
    ∀ (doc : Doc) (i : Nat) (l : Line), doc[i]? = some l →
      startsWithB pfx (strip l) = true →
      (∀ j lj, j < i → doc[j]? = some lj → startsWithB pfx (strip lj) = false) →
      findAnchor pfx doc = some i := by
  intro doc
  induction doc with
  | nil => intro i l hl; simp at hl
  | cons d ds ih =>
    intro i l hl hm hfirst
    cases i with
    | zero =>
      rw [List.getElem?_cons_zero, Option.some_inj] at hl
      simp [findAnchor, hl ▸ hm]
    | succ i' =>
      have h0 : startsWithB pfx (strip d) = false :=
        hfirst 0 d (Nat.succ_pos i') List.getElem?_cons_zero
      rw [List.getElem?_cons_succ] at hl
      have hrec := ih i' l hl hm (fun j lj hj hlj =>
        hfirst (j + 1) lj (Nat.succ_lt_succ hj) (by simpa using hlj))
      simp [findAnchor, h0, hrec]

theorem normLine_mem_ensure (doc : Doc) (c : Line) (a : Option Line)
    (h : hasLine doc c = false) : normLine c ∈ (ensure_line_present doc c a).doc := by
  unfold ensure_line_present
  rw [h]
  cases a with
  | none => simpa using normLine_mem_appendLine doc c
  | some pfx =>
    by_cases hp : pfx = []
    · simpa [hp] using normLine_mem_appendLine doc c
    · cases hf : findAnchor pfx doc with
      | none => simpa [hp, hf] using normLine_mem_appendLine doc c
      | some i => simpa [hp, hf] using normLine_mem_insertAt doc (i + 1) (normLine c)

theorem map_of_no_match (pfx nl : Line) (doc : Doc)
    (h : ∀ l ∈ doc, startsWithB pfx (strip l) = false) :
    doc.map (fun line => if startsWithB pfx (strip line) then normLine nl else line) = doc := by
  induction doc with
  | nil => rfl
  | cons l ls ih =>
    have h0 : startsWithB pfx (strip l) = false := h l (List.mem_cons_self l ls)
    simp only [List.map_cons, h0, Bool.false_eq_true, if_false,
      ih (fun x hx => h x (List.mem_cons_of_mem l hx))]

theorem ensure_eq_of_has (doc : Doc) (c : Line) (a : Option Line)
    (h : hasLine doc c = true) :
    ensure_line_present doc c a = ⟨doc, false, fun _ => true⟩ := by
  simp [ensure_line_present, h]

theorem hasLine_ensure (doc : Doc) (c : Line) (a : Option Line) :
    hasLine (ensure_line_present doc c a).doc c = true := by
  by_cases h : hasLine doc c = true
  · rw [ensure_eq_of_has doc c a h]
    exact h
  · have h0 : hasLine doc c = false := Bool.not_eq_true _ ▸ h
    exact hasLine_of_mem_normLine _ c (normLine_mem_ensure doc c a h0)

/-! ### Claim theorems -/

/-- C1: `ensure_line_present` is idempotent — for every document, every
content string and every fixed optional anchor, applying the operation twice
in a row yields the same document as applying it once. -/
theorem ensure_idempotent (doc : Doc) (c : Line) (a : Option Line) :
    (ensure_line_present (ensure_line_present doc c a).doc c a).doc
      = (ensure_line_present doc c a).doc := by
  rw [ensure_eq_of_has _ c a (hasLine_ensure doc c a)]

/-- C2: postcondition of `ensure_line_present` — after the call, some line of
the resulting document has a stripped form containing the stripped content as
a substring. -/
theorem ensure_postcondition (doc : Doc) (c : Line) (a : Option Line) :
    ∃ l ∈ (ensure_line_present doc c a).doc,
      ∃ pre post, strip l = pre ++ strip c ++ post := by
  by_cases h : hasLine doc c = true
  · obtain ⟨l, hl, hc⟩ := List.any_eq_true.mp h
    have hdoc : (ensure_line_present doc c a).doc = doc := by
      rw [ensure_eq_of_has doc c a h]
    exact ⟨l, by rw [hdoc]; exact hl, (containsB_iff (strip c) (strip l)).mp hc⟩
  · have h0 : hasLine doc c = false := Bool.not_eq_true _ ▸ h
    refine ⟨normLine c, normLine_mem_ensure doc c a h0, [], [], ?_⟩
    rw [strip_normLine]
    simp

/-- C10: whenever the already-present scan of `ensure_line_present` succeeds,
the operation returns `True` with no write and the document unchanged; in
particular, on a non-empty document any content whose stripped form is empty
is reported as already present. -/
theorem ensure_present_noop (doc : Doc) (c : Line) (a : Option Line) :
    (hasLine doc c = true →
      (ensure_line_present doc c a).doc = doc
      ∧ (ensure_line_present doc c a).wrote = false
      ∧ ∀ w, (ensure_line_present doc c a).retOf w = true)
    ∧ (doc ≠ [] → strip c = [] → hasLine doc c = true) := by
  constructor
  · intro h
    rw [ensure_eq_of_has doc c a h]
    exact ⟨rfl, rfl, fun _ => rfl⟩
  · intro hne hc
    cases doc with
    | nil => exact absurd rfl hne
    | cons l ls =>
      refine List.any_eq_true.mpr ⟨l, List.mem_cons_self l ls, ?_⟩
      rw [hc]
      exact containsB_nil (strip l)

/-- C10 witness: on the document `["A\n"]` with whitespace-only content, the
operation leaves the document unchanged and performs no write. -/
theorem ensure_present_noop_witness :
    (ensure_line_present [toL "A\n"] (toL "  ") none).doc = [toL "A\n"]
    ∧ (ensure_line_present [toL "A\n"] (toL "  ") none).wrote = false := by
  have h := ensure_present_noop [toL "A\n"] (toL "  ") none
  have hp : hasLine [toL "A\n"] (toL "  ") = true := h.2 (by decide) (by decide)
  exact ⟨(h.1 hp).1, (h.1 hp).2.1⟩

theorem ensure_eq_append_of_none (doc : Doc) (c : Line) (h : hasLine doc c = false) :
    ensure_line_present doc c none = ⟨appendLine doc c, true, fun w => w⟩ := by
  simp [ensure_line_present, h]

theorem ensure_eq_append_of_empty_anchor (doc : Doc) (c : Line)
    (h : hasLine doc c = false) :
    ensure_line_present doc c (some []) = ⟨appendLine doc c, true, fun w => w⟩ := by
  simp [ensure_line_present, h]

theorem ensure_eq_insert_of_anchor (doc : Doc) (c pfx : Line) (i : Nat)
    (h : hasLine doc c = false) (hp : pfx ≠ []) (hf : findAnchor pfx doc = some i) :
    ensure_line_present doc c (some pfx)
      = ⟨insertAt doc (i + 1) (normLine c), true, fun w => w⟩ := by
  simp [ensure_line_present, h, hp, hf]

theorem ensure_eq_append_of_anchor_miss (doc : Doc) (c pfx : Line)
    (h : hasLine doc c = false) (hp : pfx ≠ []) (hf : findAnchor pfx doc = none) :
    ensure_line_present doc c (some pfx) = ⟨appendLine doc c, true, fun w => w⟩ := by
  simp [ensure_line_present, h, hp, hf]

theorem replace_eq_of_match (doc : Doc) (pfx nl : Line)
    (h : doc.any (fun line => startsWithB pfx (strip line)) = true) :
    replaceLinePfx doc pfx nl
      = ⟨doc.map (fun line => if startsWithB pfx (strip line) then normLine nl else line),
         true, fun w => w⟩ := by
  simp [replaceLinePfx, h]

theorem replace_eq_of_no_match (doc : Doc) (pfx nl : Line)
    (h : ∀ l ∈ doc, startsWithB pfx (strip l) = false) :
    replaceLinePfx doc pfx nl = ⟨appendLine doc nl, true, fun w => w⟩ := by
  have hany : doc.any (fun line => startsWithB pfx (strip line)) = false := by
    rw [Bool.eq_false_iff]
    intro hc
    obtain ⟨l, hl, hm⟩ := List.any_eq_true.mp hc
    exact absurd hm (by simp [h l hl])
  simp only [replaceLinePfx, hany, Bool.false_eq_true, if_false]
  rw [map_of_no_match pfx nl doc h]

/-- C5 (amended): when the content is absent and a *non-empty* anchor prefix
is given, `ensure_line_present` inserts the normalized content immediately
after the first (lowest-index) line whose stripped text starts with the
anchor; when no line matches the anchor it falls back to the end-of-file
append.  (The claim's unrestricted form fails for the empty anchor string,
which Python's truthiness test treats as no anchor at all.) -/
theorem ensure_anchor_insert (doc : Doc) (c pfx : Line)
    (hnp : hasLine doc c = false) (hpe : pfx ≠ []) :
    (∀ i l, doc[i]? = some l → startsWithB pfx (strip l) = true →
      (∀ j lj, j < i → doc[j]? = some lj → startsWithB pfx (strip lj) = false) →
      (ensure_line_present doc c (some pfx)).doc
        = doc.take (i + 1) ++ normLine c :: doc.drop (i + 1))
    ∧ ((∀ l ∈ doc, startsWithB pfx (strip l) = false) →
      (ensure_line_present doc c (some pfx)).doc = appendLine doc c) := by
  constructor
  · intro i l hl hm hfirst
    rw [ensure_eq_insert_of_anchor doc c pfx i hnp hpe
      (findAnchor_eq_some pfx doc i l hl hm hfirst)]
    rfl
  · intro hnone
    rw [ensure_eq_append_of_anchor_miss doc c pfx hnp hpe (findAnchor_eq_none pfx doc hnone)]

/-- C5 witness: the spec's own anchor example — inserting `"X"` after the
anchor `"B"` in `["A\n","B\n","C\n"]` yields `["A\n","B\n","X\n","C\n"]`. -/
theorem ensure_anchor_insert_witness :
    (ensure_line_present [toL "A\n", toL "B\n", toL "C\n"] (toL "X") (some (toL "B"))).doc
      = [toL "A\n", toL "B\n", toL "X\n", toL "C\n"] := by
  have h := (ensure_anchor_insert [toL "A\n", toL "B\n", toL "C\n"] (toL "X") (toL "B")
    (by decide) (by decide)).1 1 (toL "B\n") (by decide) (by decide) ?_
  · rw [h]
    decide
  · intro j lj hj hlj
    have hj0 : j = 0 := Nat.lt_one_iff.mp hj
    subst hj0
    rw [List.getElem?_cons_zero, Option.some_inj] at hlj
    rw [← hlj]
    decide

/-- C5 counterexample: with the *empty* anchor prefix — which every line's
stripped text starts with, so the claim demands insertion right after the
first line — the code instead treats the anchor as absent and appends at the
end of the file. -/
theorem ensure_empty_anchor_cex :
    (ensure_line_present [toL "A\n", toL "B\n"] (toL "X") (some [])).doc
      = [toL "A\n", toL "B\n", toL "X\n"]
    ∧ startsWithB [] (strip (toL "A\n")) = true
    ∧ [toL "A\n", toL "B\n", toL "X\n"] ≠ [toL "A\n", toL "X\n", toL "B\n"] := by
  refine ⟨by decide, by decide, by decide⟩

theorem appendLine_eq_of_needsSep (doc : Doc) (x : Line) (h : needsSep doc = true) :
    appendLine doc x = doc ++ [['\n'], normLine x] := by
  simp [appendLine, h]

/-- C3 (amended): on the end-of-file *append* paths of `ensure_line_present`
(no anchor given, or the anchor unmatched) and of `replaceLinePfx` (no prefix
matched), a document whose last line lacks a trailing terminator first
receives a lone terminator line, so the new content never merges onto that
line; the added content is normalized to end with a terminator — one is
appended only when missing, so it ends with *at least* one (not exactly one).
The anchor-insert path adds no such separator and can merge (see the
counterexample). -/
theorem append_terminator_safety (doc : Doc) (c pfx nl last : Line)
    (hlast : doc.getLast? = some last) (hnt : endsNL last = false) :
    (hasLine doc c = false →
      (ensure_line_present doc c none).doc = doc ++ [['\n'], normLine c])
    ∧ (hasLine doc c = false → pfx ≠ [] →
      (∀ l ∈ doc, startsWithB pfx (strip l) = false) →
      (ensure_line_present doc c (some pfx)).doc = doc ++ [['\n'], normLine c])
    ∧ ((∀ l ∈ doc, startsWithB pfx (strip l) = false) →
      (replaceLinePfx doc pfx nl).doc = doc ++ [['\n'], normLine nl])
    ∧ endsNL (normLine c) = true := by
  have hsep : needsSep doc = true := needsSep_of_last doc last hlast hnt
  refine ⟨?_, ?_, ?_, endsNL_normLine c⟩
  · intro h
    rw [ensure_eq_append_of_none doc c h]
    exact appendLine_eq_of_needsSep doc c hsep
  · intro h hp hm
    rw [ensure_eq_append_of_anchor_miss doc c pfx h hp (findAnchor_eq_none pfx doc hm)]
    exact appendLine_eq_of_needsSep doc c hsep
  · intro hm
    rw [replace_eq_of_no_match doc pfx nl hm]
    exact appendLine_eq_of_needsSep doc nl hsep

/-- C3 witness: appending `"X"` to `["abc"]` (whose only line lacks a
terminator) inserts a lone terminator line first. -/
theorem append_terminator_safety_witness :
    (ensure_line_present [toL "abc"] (toL "X") none).doc
      = [toL "abc", toL "\n", toL "X\n"] := by
  have h := (append_terminator_safety [toL "abc"] (toL "X") (toL "Z") (toL "Y") (toL "abc")
    (by decide) (by decide)).1 (by decide)
  rw [h]
  decide

/-- C3 counterexample: inserting after an anchor that is the unterminated
last line.  The content is placed right after it with *no* separator — so on
disk the new text merges onto the anchor line, as the `readlines`/`serialize`
round trip shows — and content already ending in `"\n\n"` is kept with two
terminators, not normalized to exactly one. -/
theorem ensure_anchor_merge_cex :
    (ensure_line_present [toL "B"] (toL "X\n\n") (some (toL "B"))).doc
      = [toL "B", toL "X\n\n"]
    ∧ readlines (serialize (ensure_line_present [toL "B"] (toL "X\n\n") (some (toL "B"))).doc)
      = [toL "BX\n", toL "\n"]
    ∧ endsExactlyOnce (toL "X\n\n") = false := by
  refine ⟨by decide, by decide, by decide⟩

/-- C4 (amended): `replaceLinePfx` replaces *every* line whose stripped text
starts with the prefix by the terminator-normalized new line, leaves all
non-matching lines unchanged in order, and when no line matches appends the
new line at the end under the code's append rule — which also inserts a
leading terminator line when the prior document is *empty* (see the
counterexample), not only when its last line lacks a terminator. -/
theorem replace_broadcast (doc : Doc) (pfx nl : Line) :
    ((∃ l ∈ doc, startsWithB pfx (strip l) = true) →
      (replaceLinePfx doc pfx nl).doc
        = doc.map (fun line => if startsWithB pfx (strip line) then normLine nl else line)
      ∧ ∀ (i : Nat) (l : Line), doc[i]? = some l →
          (replaceLinePfx doc pfx nl).doc[i]?
            = some (if startsWithB pfx (strip l) then normLine nl else l))
    ∧ ((∀ l ∈ doc, startsWithB pfx (strip l) = false) →
      (replaceLinePfx doc pfx nl).doc = appendLine doc nl)
    ∧ (replaceLinePfx doc pfx nl).wrote = true := by
  refine ⟨?_, ?_, ?_⟩
  · intro hex
    have hany : doc.any (fun line => startsWithB pfx (strip line)) = true :=
      List.any_eq_true.mpr hex
    rw [replace_eq_of_match doc pfx nl hany]
    refine ⟨rfl, fun i l hl => ?_⟩
    simp [List.getElem?_map, hl]
  · intro hm
    rw [replace_eq_of_no_match doc pfx nl hm]
  · by_cases hany : doc.any (fun line => startsWithB pfx (strip line)) = true
    · rw [replace_eq_of_match doc pfx nl hany]
    · have hm : ∀ l ∈ doc, startsWithB pfx (strip l) = false := by
        intro l hl
        rw [Bool.eq_false_iff]
        intro hc
        exact hany (List.any_eq_true.mpr ⟨l, hl, hc⟩)
      rw [replace_eq_of_no_match doc pfx nl hm]

/-- C4 witness: the spec's broadcast example — both `FOO=` lines are
replaced, the `BAR=` line is untouched. -/
theorem replace_broadcast_witness :
    (replaceLinePfx [toL "FOO=1\n", toL "BAR=2\n", toL "FOO=3\n"]
        (toL "FOO=") (toL "FOO=9")).doc
      = [toL "FOO=9\n", toL "BAR=2\n", toL "FOO=9\n"] := by
  have h := ((replace_broadcast [toL "FOO=1\n", toL "BAR=2\n", toL "FOO=3\n"]
    (toL "FOO=") (toL "FOO=9")).1 ⟨toL "FOO=1\n", by decide, by decide⟩).1
  rw [h]
  decide

/-- C4 counterexample: on the *empty* document — where the spec's
terminator-safety rule (conditioned on a non-empty document) adds nothing —
the code still prepends a lone terminator line before the appended content,
so the result is not `["FOO=9\n"]`. -/
theorem replace_empty_doc_cex :
    (replaceLinePfx [] (toL "FOO=") (toL "FOO=9")).doc = [toL "\n", toL "FOO=9\n"]
    ∧ [toL "\n", toL "FOO=9\n"] ≠ [toL "FOO=9\n"] := by
  refine ⟨by decide, by decide⟩

theorem splitlines_no_nl : ∀ t : List Char, ∀ l ∈ splitlines t, ∀ ch ∈ l, ch ≠ '\n' := by
  intro t
  induction t with
  | nil =>
    intro l hl
    simp [splitlines] at hl
  | cons c cs ih =>
    intro l hl ch hch
    by_cases hc : c = '\n'
    · subst hc
      rw [splitlines, if_pos rfl] at hl
      rcases List.mem_cons.mp hl with h1 | h2
      · subst h1
        simp at hch
      · exact ih l h2 ch hch
    · rw [splitlines, if_neg hc] at hl
      cases hsc : splitlines cs with
      | nil =>
        rw [hsc] at hl
        simp only [List.mem_singleton] at hl
        subst hl
        simp only [List.mem_singleton] at hch
        exact hch ▸ hc
      | cons l' ls =>
        rw [hsc] at hl
        rcases List.mem_cons.mp hl with h1 | h2
        · subst h1
          rcases List.mem_cons.mp hch with h3 | h4
          · exact h3 ▸ hc
          · exact ih l' (hsc ▸ List.mem_cons_self l' ls) ch h4
        · exact ih l (hsc ▸ List.mem_cons_of_mem l' h2) ch hch

theorem endsNL_eq_false_of_no_nl (l : List Char) (h : ∀ ch ∈ l, ch ≠ '\n') :
    endsNL l = false := by
  induction l with
  | nil => rfl
  | cons c cs ih =>
    cases cs with
    | nil =>
      have := h c (List.mem_cons_self c [])
      simp [endsNL, this]
    | cons d ds =>
      exact ih (fun ch hch => h ch (List.mem_cons_of_mem c hch))

theorem endsExactlyOnce_normLine_of_no_nl (l : List Char) (h : ∀ ch ∈ l, ch ≠ '\n') :
    endsExactlyOnce (normLine l) = true := by
  have h1 : endsNL l = false := endsNL_eq_false_of_no_nl l h
  have h2 : normLine l = l ++ ['\n'] := by simp [normLine, h1]
  rw [h2]
  unfold endsExactlyOnce
  rw [List.dropLast_concat]
  simp [endsNL_concat, h1]

/-- C6: `overwrite_file` discards the prior document entirely — the result
does not depend on it — and yields exactly the new text split into lines with
each line re-terminated exactly once; it performs no already-present check
and always writes, and `"one\ntwo"` yields `["one\n","two\n"]`. -/
theorem overwrite_totality (prior prior' : Doc) (t : List Char) :
    (overwrite_file prior t).doc = (splitlines t).map normLine
    ∧ overwrite_file prior t = overwrite_file prior' t
    ∧ (overwrite_file prior t).doc.all endsExactlyOnce = true
    ∧ (overwrite_file prior t).wrote = true
    ∧ (overwrite_file prior (toL "one\ntwo")).doc = [toL "one\n", toL "two\n"] := by
  refine ⟨rfl, rfl, ?_, rfl, rfl⟩
  rw [List.all_eq_true]
  intro x hx
  obtain ⟨l, hl, rfl⟩ := List.mem_map.mp hx
  exact endsExactlyOnce_normLine_of_no_nl l (splitlines_no_nl t l hl)

theorem readlines_append (s : List Char) :
    ∀ core : List Char, (∀ ch ∈ core, ch ≠ '\n') →
      readlines (core ++ '\n' :: s) = (core ++ ['\n']) :: readlines s := by
  intro core
  induction core with
  | nil =>
    intro _
    rw [List.nil_append, readlines, if_pos rfl]
    rfl
  | cons c cs ih =>
    intro h
    have hc : c ≠ '\n' := h c (List.mem_cons_self c cs)
    rw [List.cons_append, readlines, if_neg hc,
      ih (fun ch hch => h ch (List.mem_cons_of_mem c hch))]
    rfl

theorem readlines_no_nl : ∀ core : List Char, (∀ ch ∈ core, ch ≠ '\n') → core ≠ [] →
    readlines core = [core] := by
  intro core
  induction core with
  | nil => intro _ hne; exact absurd rfl hne
  | cons c cs ih =>
    intro h _
    have hc : c ≠ '\n' := h c (List.mem_cons_self c cs)
    rw [readlines, if_neg hc]
    cases cs with
    | nil => rfl
    | cons d ds =>
      rw [ih (fun ch hch => h ch (List.mem_cons_of_mem c hch)) (by simp)]

theorem ne_nil_of_lineOk (l : Line) (h : lineOk l = true) : l ≠ [] := by
  unfold lineOk at h
  rw [Bool.and_eq_true] at h
  simpa [List.isEmpty_iff] using h.1

theorem dropLast_no_nl_of_lineOk (l : Line) (h : lineOk l = true) :
    ∀ ch ∈ l.dropLast, ch ≠ '\n' := by
  unfold lineOk at h
  rw [Bool.and_eq_true] at h
  intro ch hch
  simpa using List.all_eq_true.mp h.2 ch hch

theorem no_nl_of_lineOk_not_endsNL : ∀ l : Line, lineOk l = true → endsNL l = false →
    ∀ ch ∈ l, ch ≠ '\n' := by
  intro l
  induction l with
  | nil => intro _ _ ch hch; simp at hch
  | cons c cs ih =>
    intro hok hnl ch hch
    cases cs with
    | nil =>
      simp only [List.mem_singleton] at hch
      subst hch
      simpa [endsNL] using hnl
    | cons d ds =>
      have hok' : lineOk (d :: ds) = true := by
        unfold lineOk at hok ⊢
        rw [Bool.and_eq_true] at hok
        have h2 := hok.2
        rw [List.dropLast_cons₂, List.all_cons, Bool.and_eq_true] at h2
        simp [h2.2]
      have hnl' : endsNL (d :: ds) = false := hnl
      rcases List.mem_cons.mp hch with h1 | h2
      · subst h1
        have h2 := (Bool.and_eq_true _ _).mp hok |>.2
        rw [List.dropLast_cons₂, List.all_cons, Bool.and_eq_true] at h2
        simpa using h2.1
      · exact ih hok' hnl' ch h2

theorem readlines_serialize : ∀ doc : Doc, wellFormed doc = true →
    readlines (serialize doc) = doc := by
  intro doc
  induction doc with
  | nil => intro _; rfl
  | cons l ls ih =>
    intro h
    cases ls with
    | nil =>
      have hok : lineOk l = true := h
      rw [serialize, serialize, List.append_nil]
      by_cases hnl : endsNL l = true
      · have hsp : l.dropLast ++ ['\n'] = l := dropLast_concat_of_endsNL l hnl
        have := readlines_append [] l.dropLast (dropLast_no_nl_of_lineOk l hok)
        rw [← hsp, this]
        rfl
      · exact readlines_no_nl l
          (no_nl_of_lineOk_not_endsNL l hok (Bool.not_eq_true _ ▸ hnl))
          (ne_nil_of_lineOk l hok)
    | cons l' ls' =>
      have h3 : lineOk l = true ∧ endsNL l = true ∧ wellFormed (l' :: ls') = true := by
        have := h
        unfold wellFormed at this
        rw [Bool.and_eq_true, Bool.and_eq_true] at this
        exact ⟨this.1.1, this.1.2, this.2⟩
      have hsp : l.dropLast ++ ['\n'] = l := dropLast_concat_of_endsNL l h3.2.1
      rw [serialize]
      conv_lhs => rw [← hsp]
      rw [List.append_assoc, List.singleton_append,
        readlines_append _ l.dropLast (dropLast_no_nl_of_lineOk l h3.1), hsp,
        ih h3.2.2]

/-- C7 (amended): persisting a *well-formed* document — every line nonempty
and containing `'\n'` only as its final character, every line but the last
terminator-ended — and reloading it reproduces the same line sequence
byte-for-byte.  (For arbitrary in-memory documents the claim fails: see the
counterexample, where an unterminated interior line merges with its
successor.) -/
theorem round_trip (doc : Doc) (h : wellFormed doc = true) :
    read_file (afterWrite doc) = Except.ok doc := by
  show Except.map readlines (Except.ok (serialize doc)) = Except.ok doc
  rw [Except.map, readlines_serialize doc h]

/-- C7 witness: the two-line document `["hi\n","yo"]` survives the
write/read round trip unchanged. -/
theorem round_trip_witness :
    read_file (afterWrite [toL "hi\n", toL "yo"]) = Except.ok [toL "hi\n", toL "yo"] :=
  round_trip [toL "hi\n", toL "yo"] (by decide)

/-- C7 counterexample: the document `["a","b"]` — legal under the data
model, whose lines are "each either newline-terminated or not" — serializes
to `"ab"` and reloads as the single line `["ab"]`, not byte-for-byte the
original sequence. -/
theorem round_trip_cex :
    read_file (afterWrite [toL "a", toL "b"]) = Except.ok [toL "ab"]
    ∧ [toL "ab"] ≠ [toL "a", toL "b"] :=
  ⟨rfl, by decide⟩

/-- C8: a missing file is not an error — when the bound path does not exist
the load yields the empty document, raising nothing. -/
theorem read_missing_ok (env : IOEnv) (h : env.fileExists = false) :
    read_file env = Except.ok [] := by
  simp [read_file, h]

/-- C8 witness: a concrete environment with no file at the path loads as the
empty document. -/
theorem read_missing_ok_witness :
    read_file ⟨false, Except.error PyExn.permissionDenied, Except.ok ()⟩ = Except.ok [] :=
  read_missing_ok ⟨false, Except.error PyExn.permissionDenied, Except.ok ()⟩ rfl

/-- C9 (amended): write failures are caught by `_write_file`'s
`try/except` and converted into a `False` return, but read failures on an
existing file are *not* caught — `_read_file` has no handler, so the
exception propagates out of the operation (see the counterexample). -/
theorem io_failure_handling (env : IOEnv) (d : Doc) :
    ((∃ e, env.writeRes = Except.error e) → write_file env d = false)
    ∧ (env.writeRes = Except.ok () → write_file env d = true)
    ∧ (env.fileExists = true → ∀ e, env.readRaw = Except.error e →
        read_file env = Except.error e) := by
  refine ⟨?_, ?_, ?_⟩
  · rintro ⟨e, he⟩
    simp [write_file, he]
  · intro he
    simp [write_file, he]
  · intro hex e he
    simp [read_file, hex, he, Except.map]

/-- C9 witness: a failing write attempt is reported as a `False` return
value rather than an exception. -/
theorem io_failure_handling_witness :
    write_file ⟨true, Except.ok [], Except.error PyExn.ioError⟩ [] = false :=
  (io_failure_handling ⟨true, Except.ok [], Except.error PyExn.ioError⟩ []).1
    ⟨PyExn.ioError, rfl⟩

/-- C9 counterexample: a permission failure while reading an existing file
propagates out of `_read_file` as an exception — it is not caught and not
converted into a reported failure result. -/
theorem read_error_propagates_cex :
    read_file ⟨true, Except.error PyExn.permissionDenied, Except.ok ()⟩
      = Except.error PyExn.permissionDenied := rfl

end Bootstrap
